import Mathlib

/-!
Verification of the isonegar geometry-resolution and spatial-query core.

The TypeScript source (src/unnamed/part_000) is shallowly embedded here:
JS numbers are modelled as real numbers, the two mutable Maps of
resolveAllCoordinates become an explicit state record threaded through the
recursion, and the unbounded recursion of the inner resolve closure is
modelled with an explicit fuel parameter (a result of none means the
recursion did not terminate within the given depth budget; the JS code has
no cycle guard, so exhausting every finite budget corresponds to the stack
overflow of the original).
-/

namespace Isonegar

noncomputable section

/-- The six symbolic directions of src/types.ts. -/
inductive Direction
  | NORTH
  | SOUTH
  | EAST
  | WEST
  | UP
  | DOWN
deriving DecidableEq

/-- InstallationType of src/types.ts. -/
inductive InstallationType
  | ABOVE
  | UNDER
deriving DecidableEq

/-- FittingType of src/types.ts. -/
inductive FittingType
  | NONE
  | VALVE_GC
  | VALVE_RC
  | VALVE_WH
  | VALVE_PC
  | VALVE_H
  | VALVE_MAIN
  | VALVE
  | VALVE_LI
  | VALVE_FP
  | VALVE_B
  | METER
  | REGULATOR
  | ELBOW45
  | TEE
  | COUPLING
  | NIPPLE
  | CAP
  | FLANGE
  | UNION
  | REDUCER
deriving DecidableEq

/-- PipeSegment of src/types.ts. -/
structure PipeSegment where
  id : String
  parentId : String
  length : ℝ
  size : String
  direction : Direction
  fitting : FittingType
  installationType : InstallationType
  label : Option String

/-- Vector2D of src/types.ts. -/
structure Vector2D where
  x : ℝ
  y : ℝ

/-- ResolvedCoordinates of src/types.ts. -/
structure ResolvedCoordinates where
  startX : ℝ
  startY : ℝ
  endX : ℝ
  endY : ℝ

/-- CONFIG.SCALE of src/constants.ts. -/
def CONFIG_SCALE : ℝ := 2.5

/-- CONFIG.ISO_ANGLE of src/constants.ts (30 degrees). -/
def CONFIG_ISO_ANGLE : ℝ := Real.pi / 6

/-- calculateIsoVector of src/unnamed/part_000 lines 4-19. -/
def calculateIsoVector (lengthCm : ℝ) (direction : Direction) : Vector2D :=
  let len := lengthCm * CONFIG_SCALE
  let cos30 := Real.cos CONFIG_ISO_ANGLE
  let sin30 := Real.sin CONFIG_ISO_ANGLE
  match direction with
  | .UP => ⟨0, -len⟩
  | .DOWN => ⟨0, len⟩
  | .NORTH => ⟨len * cos30, -(len * sin30)⟩
  | .SOUTH => ⟨-(len * cos30), len * sin30⟩
  | .EAST => ⟨len * cos30, len * sin30⟩
  | .WEST => ⟨-(len * cos30), -(len * sin30)⟩

/-- Association-list model of JS Map.get: first binding of the key wins
(keys are never overwritten by the resolver, so first-match lookup agrees
with the JS Map). -/
def lookupStr {α : Type} (key : String) : List (String × α) → Option α
  | [] => none
  | (k, v) :: rest => if k = key then some v else lookupStr key rest

/-- Model of the JS call pipes.find(p => p.id === id): first pipe in list
order whose id field equals the requested id. -/
def findPipe (id : String) : List PipeSegment → Option PipeSegment
  | [] => none
  | p :: rest => if p.id = id then some p else findPipe id rest

/-- The two mutable maps of resolveAllCoordinates (nodePositions, coords),
threaded explicitly. -/
structure ResolveState where
  nodePositions : List (String × Vector2D)
  coords : List (String × ResolvedCoordinates)

/-- The seeding of nodePositions with ROOT at the origin
(line 25 of src/unnamed/part_000). -/
def initialState : ResolveState :=
  ⟨[("ROOT", ⟨0, 0⟩)], []⟩

/-- The inner recursive closure resolve of resolveAllCoordinates
(src/unnamed/part_000 lines 27-48), with a fuel parameter bounding the
recursion depth. Result none models a recursion that did not return within
the budget (the unguarded JS recursion overflowing the stack);
some (none, st) models the JS return value null; some (some v, st) models a
successful return of position v. -/
def resolve (pipes : List PipeSegment) : Nat → String → ResolveState →
    Option (Option Vector2D × ResolveState)
  | 0, _, _ => none
  | fuel + 1, id, st =>
    match lookupStr id st.nodePositions with
    | some v => some (some v, st)
    | none =>
      match findPipe id pipes with
      | none => some (none, st)
      | some pipe =>
        match resolve pipes fuel pipe.parentId st with
        | none => none
        | some (none, st') => some (none, st')
        | some (some parentPos, st') =>
          let vector := calculateIsoVector pipe.length pipe.direction
          let endPos : Vector2D := ⟨parentPos.x + vector.x, parentPos.y + vector.y⟩
          some (some endPos,
            ⟨st'.nodePositions ++ [(id, endPos)],
             st'.coords ++
               [(id, ⟨parentPos.x, parentPos.y, endPos.x, endPos.y⟩)]⟩)

/-- The pipes.forEach(p => resolve(p.id)) loop of resolveAllCoordinates
(line 51): resolve every pipe in list order, ignoring the returned value,
threading the state. A diverging resolve call makes the whole pass
diverge. -/
def resolveList (pipes : List PipeSegment) (fuel : Nat) :
    ResolveState → List PipeSegment → Option ResolveState
  | st, [] => some st
  | st, p :: rest =>
    match resolve pipes fuel p.id st with
    | none => none
    | some (_, st') => resolveList pipes fuel st' rest

/-- resolveAllCoordinates of src/unnamed/part_000 lines 21-52: returns the
coords map after resolving every pipe, or none when the recursion exceeds
the fuel budget. -/
def resolveAllCoordinates (fuel : Nat) (pipes : List PipeSegment) :
    Option (List (String × ResolvedCoordinates)) :=
  (resolveList pipes fuel initialState pipes).map ResolveState.coords

/-- Math.hypot on two arguments. -/
def hypot (a b : ℝ) : ℝ := Real.sqrt (a ^ 2 + b ^ 2)

/-- The for-of loop over pipeCoords.values() in findNearestNode
(lines 73-79), accumulating (minDict, nearest). -/
def snapLoop (x y : ℝ) : List (String × ResolvedCoordinates) → ℝ →
    Option Vector2D → ℝ × Option Vector2D
  | [], minDict, nearest => (minDict, nearest)
  | c :: rest, minDict, nearest =>
    let d := hypot (x - c.2.endX) (y - c.2.endY)
    if d < minDict then snapLoop x y rest d (some ⟨c.2.endX, c.2.endY⟩)
    else snapLoop x y rest minDict nearest

/-- findNearestNode of src/unnamed/part_000 lines 57-83. -/
def findNearestNode (x y : ℝ) (pipeCoords : List (String × ResolvedCoordinates))
    (threshold : ℝ) : Option Vector2D :=
  let minDict := threshold
  let nearest : Option Vector2D := none
  let rootDist := hypot x y
  let acc := if rootDist < minDict then (rootDist, some (⟨0, 0⟩ : Vector2D))
             else (minDict, nearest)
  (snapLoop x y pipeCoords acc.1 acc.2).2

/-- getDistanceToSegment of src/unnamed/part_000 lines 88-98. -/
def getDistanceToSegment (px py x1 y1 x2 y2 : ℝ) : ℝ :=
  let l2 := (x2 - x1) ^ 2 + (y2 - y1) ^ 2
  if l2 = 0 then hypot (px - x1) (py - y1)
  else
    let t0 := ((px - x1) * (x2 - x1) + (py - y1) * (y2 - y1)) / l2
    let t := max 0 (min 1 t0)
    hypot (px - (x1 + t * (x2 - x1))) (py - (y1 + t * (y2 - y1)))

/-! ### Direction vector calculator: C9 and C10 -/

/-- C9: calculateIsoVector applied to length 0 returns the zero vector for
every one of the six directions, and the function is total: for every
length and direction it returns some vector, with no failure case. -/
theorem calculateIsoVector_zero_length :
    (∀ d : Direction, calculateIsoVector 0 d = ⟨0, 0⟩) ∧
    (∀ (lengthCm : ℝ) (d : Direction), ∃ v : Vector2D,
        calculateIsoVector lengthCm d = v) := by
  constructor
  · intro d
    cases d <;> simp [calculateIsoVector]
  · intro lengthCm d
    exact ⟨calculateIsoVector lengthCm d, rfl⟩

/-- C10: for every length L that is nonnegative and every direction, the
Euclidean norm of calculateIsoVector L d is exactly L multiplied by the
scale CONFIG_SCALE (which is 2.5), because the squared cosine and sine of
the 30 degree tilt sum to 1. -/
theorem calculateIsoVector_norm (lengthCm : ℝ) (d : Direction)
    (h : 0 ≤ lengthCm) :
    hypot (calculateIsoVector lengthCm d).x (calculateIsoVector lengthCm d).y
      = lengthCm * CONFIG_SCALE := by
  have hcs : Real.cos CONFIG_ISO_ANGLE ^ 2 + Real.sin CONFIG_ISO_ANGLE ^ 2 = 1 :=
    Real.cos_sq_add_sin_sq _
  have hsc : (0 : ℝ) ≤ CONFIG_SCALE := by norm_num [CONFIG_SCALE]
  have hlen : 0 ≤ lengthCm * CONFIG_SCALE := mul_nonneg h hsc
  have key : ∀ a b : ℝ, a ^ 2 + b ^ 2 = (lengthCm * CONFIG_SCALE) ^ 2 →
      Real.sqrt (a ^ 2 + b ^ 2) = lengthCm * CONFIG_SCALE := by
    intro a b hab
    rw [hab, Real.sqrt_sq hlen]
  cases d <;>
    (simp only [calculateIsoVector, hypot]
     refine key _ _ ?_
     first
       | ring1
       | linear_combination (lengthCm * CONFIG_SCALE) ^ 2 * hcs)

/-- Witness for C10 at length 1 going UP. -/
theorem calculateIsoVector_norm_witness :
    (0 : ℝ) ≤ 1 ∧
    hypot (calculateIsoVector 1 Direction.UP).x
        (calculateIsoVector 1 Direction.UP).y = 1 * CONFIG_SCALE :=
  ⟨by norm_num, calculateIsoVector_norm 1 Direction.UP (by norm_num)⟩

/-! ### Point-to-segment distance: C5 and C6 -/

/-- C6: on a zero-length segment (both endpoints equal) the distance
function takes the early-return branch and yields the plain Euclidean
point-to-point distance; the division that defines the projection
parameter is never reached. -/
theorem getDistanceToSegment_degenerate (px py x y : ℝ) :
    getDistanceToSegment px py x y x y
      = Real.sqrt ((px - x) ^ 2 + (py - y) ^ 2) := by
  simp [getDistanceToSegment, hypot]

/-- Minimality of the clamped projection parameter for the squared
distance: with dot product presented as t0 times the squared segment
length, the clamp of t0 to the unit interval minimises the squared
point-to-segment distance over that interval. -/
theorem clampSq_le (wx wy vx vy t t0 : ℝ) (hl2 : 0 < vx ^ 2 + vy ^ 2)
    (hdot : wx * vx + wy * vy = t0 * (vx ^ 2 + vy ^ 2))
    (ht0 : 0 ≤ t) (ht1 : t ≤ 1) :
    (wx - max 0 (min 1 t0) * vx) ^ 2 + (wy - max 0 (min 1 t0) * vy) ^ 2
      ≤ (wx - t * vx) ^ 2 + (wy - t * vy) ^ 2 := by
  rcases le_or_lt t0 0 with hc | hc
  · rw [min_eq_right (hc.trans zero_le_one), max_eq_left hc]
    nlinarith [mul_nonneg (mul_nonneg ht0 ht0) hl2.le,
      mul_nonneg (mul_nonneg ht0 (neg_nonneg.2 hc)) hl2.le]
  · rcases le_or_lt t0 1 with hc1 | hc1
    · rw [min_eq_right hc1, max_eq_right hc.le]
      nlinarith [mul_nonneg hl2.le (sq_nonneg (t - t0)),
        mul_nonneg hc.le hl2.le, mul_nonneg ht0 hl2.le]
    · rw [min_eq_left hc1.le, max_eq_right zero_le_one]
      nlinarith [mul_nonneg (by linarith : (0 : ℝ) ≤ 1 - t)
          (mul_nonneg (by linarith : (0 : ℝ) ≤ 2 * t0 - t - 1) hl2.le),
        mul_nonneg ht0 hl2.le]

/-- C5: on a non-degenerate segment, getDistanceToSegment returns the
least element of the set of Euclidean distances from the query point to
the points of the segment (parametrised over t in the unit interval); in
particular the distance it returns is attained at the clamped projection
parameter and is a lower bound for the distance at every parameter. -/
theorem getDistanceToSegment_isLeast (px py x1 y1 x2 y2 : ℝ)
    (h : (x1, y1) ≠ (x2, y2)) :
    IsLeast {d : ℝ | ∃ t, t ∈ Set.Icc (0 : ℝ) 1 ∧
        d = hypot (px - (x1 + t * (x2 - x1))) (py - (y1 + t * (y2 - y1)))}
      (getDistanceToSegment px py x1 y1 x2 y2) := by
  have hl2ne : (x2 - x1) ^ 2 + (y2 - y1) ^ 2 ≠ 0 := by
    intro h0
    apply h
    have hx : x2 - x1 = 0 := by nlinarith [sq_nonneg (x2 - x1), sq_nonneg (y2 - y1)]
    have hy : y2 - y1 = 0 := by nlinarith [sq_nonneg (x2 - x1), sq_nonneg (y2 - y1)]
    have hx' : x1 = x2 := by linarith
    have hy' : y1 = y2 := by linarith
    rw [hx', hy']
  have hl2 : 0 < (x2 - x1) ^ 2 + (y2 - y1) ^ 2 :=
    lt_of_le_of_ne (by positivity) (Ne.symm hl2ne)
  have hval : getDistanceToSegment px py x1 y1 x2 y2
      = hypot
          (px - (x1 + max 0 (min 1
            (((px - x1) * (x2 - x1) + (py - y1) * (y2 - y1)) /
              ((x2 - x1) ^ 2 + (y2 - y1) ^ 2))) * (x2 - x1)))
          (py - (y1 + max 0 (min 1
            (((px - x1) * (x2 - x1) + (py - y1) * (y2 - y1)) /
              ((x2 - x1) ^ 2 + (y2 - y1) ^ 2))) * (y2 - y1))) := by
    unfold getDistanceToSegment
    rw [if_neg hl2ne]
  constructor
  · refine ⟨max 0 (min 1
      (((px - x1) * (x2 - x1) + (py - y1) * (y2 - y1)) /
        ((x2 - x1) ^ 2 + (y2 - y1) ^ 2))), ⟨?_, ?_⟩, hval⟩
    · exact le_max_left 0 _
    · exact max_le zero_le_one (min_le_left 1 _)
  · rintro d ⟨t, ⟨ht0, ht1⟩, rfl⟩
    rw [hval]
    unfold hypot
    apply Real.sqrt_le_sqrt
    have hdot : (px - x1) * (x2 - x1) + (py - y1) * (y2 - y1)
        = (((px - x1) * (x2 - x1) + (py - y1) * (y2 - y1)) /
            ((x2 - x1) ^ 2 + (y2 - y1) ^ 2)) * ((x2 - x1) ^ 2 + (y2 - y1) ^ 2) :=
      (div_mul_cancel₀ _ hl2ne).symm
    have key := clampSq_le (px - x1) (py - y1) (x2 - x1) (y2 - y1) t
      (((px - x1) * (x2 - x1) + (py - y1) * (y2 - y1)) /
        ((x2 - x1) ^ 2 + (y2 - y1) ^ 2)) hl2 hdot ht0 ht1
    nlinarith [key]

/-- Witness for C5: the unit horizontal segment from the origin is
non-degenerate and the theorem applies to it at the query point (0, 0). -/
theorem getDistanceToSegment_isLeast_witness :
    ((0 : ℝ), (0 : ℝ)) ≠ ((1 : ℝ), (0 : ℝ)) ∧
    IsLeast {d : ℝ | ∃ t, t ∈ Set.Icc (0 : ℝ) 1 ∧
        d = hypot (0 - (0 + t * (1 - 0))) (0 - (0 + t * (0 - 0)))}
      (getDistanceToSegment 0 0 0 0 1 0) :=
  ⟨by norm_num [Prod.ext_iff],
   getDistanceToSegment_isLeast 0 0 0 0 1 0 (by norm_num [Prod.ext_iff])⟩

/-! ### Nearest snap point: C4 -/

/-- The end point of one entry of the coordinate map. -/
def endVec (c : String × ResolvedCoordinates) : Vector2D := ⟨c.2.endX, c.2.endY⟩

/-- The candidate set of the spec: the world origin plus the end point of
every resolved segment. -/
def snapCandidates (pipeCoords : List (String × ResolvedCoordinates)) :
    List Vector2D :=
  ⟨0, 0⟩ :: pipeCoords.map endVec

/-- Euclidean distance from the query point to a candidate. -/
def distTo (x y : ℝ) (v : Vector2D) : ℝ := hypot (x - v.x) (y - v.y)

/-- NearestSnapPoint contract, following the words of the spec: no result
exactly when no candidate is strictly within the threshold, otherwise a
candidate strictly within the threshold achieving the minimum distance. -/
def NearestSnapSpec (x y threshold : ℝ)
    (pipeCoords : List (String × ResolvedCoordinates)) :
    Option Vector2D → Prop
  | none => ∀ c ∈ snapCandidates pipeCoords, threshold ≤ distTo x y c
  | some n => n ∈ snapCandidates pipeCoords ∧ distTo x y n < threshold ∧
      ∀ c ∈ snapCandidates pipeCoords, distTo x y n ≤ distTo x y c

/-- Invariant of the candidate loop of findNearestNode: the accumulator
holds the strict minimum so far over the already seen candidates. -/
theorem snapLoop_spec (x y threshold : ℝ) :
    ∀ (l : List (String × ResolvedCoordinates)) (seen : List Vector2D)
      (minDict : ℝ) (nearest : Option Vector2D),
      (nearest = none → minDict = threshold ∧
        ∀ c ∈ seen, threshold ≤ distTo x y c) →
      (∀ n, nearest = some n → n ∈ seen ∧ minDict = distTo x y n ∧
          minDict < threshold ∧ ∀ c ∈ seen, minDict ≤ distTo x y c) →
      ((snapLoop x y l minDict nearest).2 = none →
          ∀ c ∈ seen ++ l.map endVec, threshold ≤ distTo x y c) ∧
      (∀ n, (snapLoop x y l minDict nearest).2 = some n →
          n ∈ seen ++ l.map endVec ∧ distTo x y n < threshold ∧
          ∀ c ∈ seen ++ l.map endVec, distTo x y n ≤ distTo x y c) := by
  intro l
  induction l with
  | nil =>
    intro seen minDict nearest hnone hsome
    simp only [snapLoop, List.map_nil, List.append_nil]
    constructor
    · intro hn
      exact (hnone hn).2
    · intro n hn
      obtain ⟨hmem, heq, hlt, hall⟩ := hsome n hn
      exact ⟨hmem, heq ▸ hlt, fun c hc => heq ▸ hall c hc⟩
  | cons c rest ih =>
    intro seen minDict nearest hnone hsome
    have hdist : distTo x y (endVec c) = hypot (x - c.2.endX) (y - c.2.endY) := rfl
    have hsets : ∀ a : Vector2D,
        a ∈ (seen ++ [endVec c]) ++ rest.map endVec ↔
        a ∈ seen ++ (c :: rest).map endVec := by
      intro a
      simp only [List.mem_append, List.mem_singleton, List.map_cons,
        List.mem_cons]
      tauto
    simp only [snapLoop]
    by_cases hd : hypot (x - c.2.endX) (y - c.2.endY) < minDict
    · rw [if_pos hd]
      have hltth : hypot (x - c.2.endX) (y - c.2.endY) < threshold := by
        rcases hnr : nearest with _ | n0
        · have := (hnone hnr).1
          linarith
        · have := (hsome n0 hnr).2.2.1
          linarith
      have hseen : ∀ a ∈ seen,
          hypot (x - c.2.endX) (y - c.2.endY) ≤ distTo x y a := by
        intro a ha
        rcases hnr : nearest with _ | n0
        · obtain ⟨heq, hall⟩ := hnone hnr
          have := hall a ha
          linarith
        · obtain ⟨_, _, _, hall⟩ := hsome n0 hnr
          have := hall a ha
          linarith
      have key := ih (seen ++ [endVec c]) (hypot (x - c.2.endX) (y - c.2.endY))
        (some (endVec c))
        (by intro h; simp at h)
        (by
          intro n hn
          injection hn with hn'
          subst hn'
          refine ⟨by simp, hdist.symm, hltth, ?_⟩
          intro a ha
          rcases List.mem_append.mp ha with ha | ha
          · exact hseen a ha
          · rw [List.mem_singleton.mp ha, hdist])
      constructor
      · intro h0 a ha
        exact key.1 h0 a ((hsets a).mpr ha)
      · intro n hn
        obtain ⟨hm, hlt, hall⟩ := key.2 n hn
        exact ⟨(hsets n).mp hm, hlt, fun a ha => hall a ((hsets a).mpr ha)⟩
    · rw [if_neg hd]
      have hge : minDict ≤ hypot (x - c.2.endX) (y - c.2.endY) := not_lt.mp hd
      have key := ih (seen ++ [endVec c]) minDict nearest
        (by
          intro h
          obtain ⟨heq, hall⟩ := hnone h
          refine ⟨heq, ?_⟩
          intro a ha
          rcases List.mem_append.mp ha with ha | ha
          · exact hall a ha
          · rw [List.mem_singleton.mp ha, hdist]
            linarith)
        (by
          intro n hn
          obtain ⟨hm, heq, hlt, hall⟩ := hsome n hn
          refine ⟨List.mem_append_left _ hm, heq, hlt, ?_⟩
          intro a ha
          rcases List.mem_append.mp ha with ha | ha
          · exact hall a ha
          · rw [List.mem_singleton.mp ha, hdist]
            exact hge)
      constructor
      · intro h0 a ha
        exact key.1 h0 a ((hsets a).mpr ha)
      · intro n hn
        obtain ⟨hm, hlt, hall⟩ := key.2 n hn
        exact ⟨(hsets n).mp hm, hlt, fun a ha => hall a ((hsets a).mpr ha)⟩

/-- C4: findNearestNode considers as candidates exactly the world origin
plus the end point of every entry of the coordinate map; when some
candidate is strictly within the threshold the result is a candidate of
minimum distance strictly within the threshold, and when no candidate is
strictly within the threshold the result is none. -/
theorem findNearestNode_meets_spec (x y : ℝ)
    (pipeCoords : List (String × ResolvedCoordinates)) (threshold : ℝ) :
    NearestSnapSpec x y threshold pipeCoords
      (findNearestNode x y pipeCoords threshold) := by
  have horig : distTo x y (⟨0, 0⟩ : Vector2D) = hypot x y := by
    simp [distTo, hypot]
  unfold findNearestNode
  by_cases hroot : hypot x y < threshold
  · simp only [if_pos hroot]
    have key := snapLoop_spec x y threshold pipeCoords [⟨0, 0⟩] (hypot x y)
      (some ⟨0, 0⟩)
      (by intro h; simp at h)
      (by
        intro n hn
        injection hn with hn'
        subst hn'
        exact ⟨List.mem_singleton.mpr rfl, horig.symm, hroot,
          fun a ha => by rw [List.mem_singleton.mp ha, horig]⟩)
    rcases hres : (snapLoop x y pipeCoords (hypot x y, some (⟨0, 0⟩ : Vector2D)).1
        (hypot x y, some (⟨0, 0⟩ : Vector2D)).2).2 with _ | n
    · show ∀ c ∈ snapCandidates pipeCoords, threshold ≤ distTo x y c
      exact key.1 hres
    · show n ∈ snapCandidates pipeCoords ∧ distTo x y n < threshold ∧
        ∀ c ∈ snapCandidates pipeCoords, distTo x y n ≤ distTo x y c
      exact key.2 n hres
  · simp only [if_neg hroot]
    have key := snapLoop_spec x y threshold pipeCoords [⟨0, 0⟩] threshold
      (none : Option Vector2D)
      (by
        intro _
        refine ⟨rfl, ?_⟩
        intro a ha
        rw [List.mem_singleton.mp ha, horig]
        exact not_lt.mp hroot)
      (by intro n hn; simp at hn)
    rcases hres : (snapLoop x y pipeCoords (threshold, (none : Option Vector2D)).1
        (threshold, (none : Option Vector2D)).2).2 with _ | n
    · show ∀ c ∈ snapCandidates pipeCoords, threshold ≤ distTo x y c
      exact key.1 hres
    · show n ∈ snapCandidates pipeCoords ∧ distTo x y n < threshold ∧
        ∀ c ∈ snapCandidates pipeCoords, distTo x y n ≤ distTo x y c
      exact key.2 n hres

/-! ### Resolver specification predicates -/

/-- The intended absolute end position of a node, derived from the parent
chain of the pipe list: ROOT sits at the origin, and a non-ROOT id found in
the list sits at its parent position displaced by its direction vector. -/
inductive PosSpec (pipes : List PipeSegment) : String → Vector2D → Prop
  | root : PosSpec pipes "ROOT" ⟨0, 0⟩
  | step {id : String} {p : PipeSegment} {v : Vector2D} :
      id ≠ "ROOT" → findPipe id pipes = some p →
      PosSpec pipes p.parentId v →
      PosSpec pipes id
        ⟨v.x + (calculateIsoVector p.length p.direction).x,
         v.y + (calculateIsoVector p.length p.direction).y⟩

/-- A node whose full ancestor chain terminates at ROOT. -/
def ReachesRoot (pipes : List PipeSegment) (id : String) : Prop :=
  ∃ v, PosSpec pipes id v

/-- A node whose parent chain terminates, either at ROOT or at a missing
id. For the finitely many deterministic parent chains of a pipe list this
is exactly the absence of a parent cycle reachable from the node: the
chain is generated by the deterministic step findPipe followed by
parentId, so an id whose chain never terminates must revisit some id,
which is a cycle, and conversely a chain through a cycle never
terminates. -/
inductive Resolvable (pipes : List PipeSegment) : String → Prop
  | root : Resolvable pipes "ROOT"
  | missing {id : String} : findPipe id pipes = none → Resolvable pipes id
  | step {id : String} {p : PipeSegment} : findPipe id pipes = some p →
      Resolvable pipes p.parentId → Resolvable pipes id

/-- The position of a node is unique in PosSpec. -/
theorem posSpec_unique {pipes : List PipeSegment} {id : String} {v : Vector2D}
    (h1 : PosSpec pipes id v) : ∀ w, PosSpec pipes id w → v = w := by
  induction h1 with
  | root =>
    intro w h2
    cases h2 with
    | root => rfl
    | step hne _ _ => exact absurd rfl hne
  | step hne hf hp ih =>
    intro w h2
    cases h2 with
    | root => exact absurd rfl hne
    | step hne' hf' hp' =>
      rw [hf] at hf'
      injection hf' with hpe
      subst hpe
      rw [ih _ hp']

/-- A node with a PosSpec position has a terminating ancestor chain. -/
theorem resolvable_of_posSpec {pipes : List PipeSegment} {id : String}
    {v : Vector2D} (h : PosSpec pipes id v) : Resolvable pipes id := by
  induction h with
  | root => exact Resolvable.root
  | step _ hf _ ih => exact Resolvable.step hf ih

/-! ### Lookup helper lemmas -/

/-- A binding visible in the front part of an appended association list
stays visible. -/
theorem lookupStr_append_some {α : Type} {key : String}
    {l : List (String × α)} {v : α} (h : lookupStr key l = some v)
    (l' : List (String × α)) : lookupStr key (l ++ l') = some v := by
  induction l with
  | nil => exact absurd h (by simp [lookupStr])
  | cons a rest ih =>
    rcases a with ⟨k, w⟩
    by_cases hk : k = key
    · rw [lookupStr, if_pos hk] at h
      rw [List.cons_append, lookupStr, if_pos hk]
      exact h
    · rw [lookupStr, if_neg hk] at h
      rw [List.cons_append, lookupStr, if_neg hk]
      exact ih h

/-- Looking up past a front part with no binding for the key reads the
back part. -/
theorem lookupStr_append_none {α : Type} {key : String}
    {l : List (String × α)} (h : lookupStr key l = none)
    (l' : List (String × α)) : lookupStr key (l ++ l') = lookupStr key l' := by
  induction l with
  | nil => simp
  | cons a rest ih =>
    rcases a with ⟨k, w⟩
    by_cases hk : k = key
    · rw [lookupStr, if_pos hk] at h
      exact absurd h (by simp)
    · rw [lookupStr, if_neg hk] at h
      rw [List.cons_append, lookupStr, if_neg hk]
      exact ih h

/-- Lookup in a one-binding list. -/
theorem lookupStr_singleton {α : Type} (key k : String) (w : α) :
    lookupStr key [(k, w)] = if k = key then some w else none := rfl

/-- A found pipe is in the list and has the requested id. -/
theorem findPipe_mem {pipes : List PipeSegment} {id : String} {p : PipeSegment}
    (h : findPipe id pipes = some p) : p ∈ pipes ∧ p.id = id := by
  induction pipes with
  | nil => exact absurd h (by simp [findPipe])
  | cons q rest ih =>
    by_cases hq : q.id = id
    · rw [findPipe, if_pos hq] at h
      injection h with h
      subst h
      exact ⟨List.mem_cons_self _ _, hq⟩
    · rw [findPipe, if_neg hq] at h
      obtain ⟨h1, h2⟩ := ih h
      exact ⟨List.mem_cons_of_mem _ h1, h2⟩

/-- If some pipe in the list has the requested id then findPipe finds
one. -/
theorem findPipe_isSome_of_mem {pipes : List PipeSegment} {id : String}
    {p : PipeSegment} (hp : p ∈ pipes) (hid : p.id = id) :
    ∃ q, findPipe id pipes = some q := by
  induction pipes with
  | nil => exact absurd hp (by simp)
  | cons q rest ih =>
    by_cases hq : q.id = id
    · exact ⟨q, by rw [findPipe, if_pos hq]⟩
    · rcases List.mem_cons.mp hp with he | hm
      · exact absurd (he ▸ hid) hq
      · obtain ⟨r, hr⟩ := ih hm
        exact ⟨r, by rw [findPipe, if_neg hq]; exact hr⟩

/-! ### Resolver invariant -/

/-- Invariant of the resolver state: ROOT is cached at the origin, every
cached non-ROOT position is the PosSpec position and has a matching coords
entry, and every coords entry records exactly the parent position plus the
direction vector, pointing back at its parent entry (or at the origin when
the parent is ROOT). -/
structure Inv (pipes : List PipeSegment) (st : ResolveState) : Prop where
  root_mem : lookupStr "ROOT" st.nodePositions = some ⟨0, 0⟩
  pos_spec : ∀ id v, lookupStr id st.nodePositions = some v →
    id = "ROOT" ∨ (PosSpec pipes id v ∧
      ∃ rc, lookupStr id st.coords = some rc ∧ rc.endX = v.x ∧ rc.endY = v.y)
  coords_spec : ∀ id rc, lookupStr id st.coords = some rc →
    id ≠ "ROOT" ∧
    (∃ v, lookupStr id st.nodePositions = some v ∧
      v.x = rc.endX ∧ v.y = rc.endY) ∧
    ∃ p, findPipe id pipes = some p ∧
      PosSpec pipes p.parentId ⟨rc.startX, rc.startY⟩ ∧
      rc.endX = rc.startX + (calculateIsoVector p.length p.direction).x ∧
      rc.endY = rc.startY + (calculateIsoVector p.length p.direction).y ∧
      (p.parentId = "ROOT" ∧ rc.startX = 0 ∧ rc.startY = 0 ∨
       ∃ prc, lookupStr p.parentId st.coords = some prc ∧
         prc.endX = rc.startX ∧ prc.endY = rc.startY)

/-- State extension: every binding of the smaller state is still visible
in the larger one. -/
structure StExt (st st' : ResolveState) : Prop where
  pos : ∀ id v, lookupStr id st.nodePositions = some v →
    lookupStr id st'.nodePositions = some v
  coords : ∀ id rc, lookupStr id st.coords = some rc →
    lookupStr id st'.coords = some rc

/-- State extension is reflexive. -/
theorem stExt_refl (st : ResolveState) : StExt st st :=
  ⟨fun _ _ h => h, fun _ _ h => h⟩

/-- State extension is transitive. -/
theorem stExt_trans {a b c : ResolveState} (h1 : StExt a b) (h2 : StExt b c) :
    StExt a c :=
  ⟨fun i v h => h2.pos i v (h1.pos i v h),
   fun i rc h => h2.coords i rc (h1.coords i rc h)⟩

/-- Appending fresh bindings extends a state. -/
theorem stExt_append (st : ResolveState) (ps : List (String × Vector2D))
    (cs : List (String × ResolvedCoordinates)) :
    StExt st ⟨st.nodePositions ++ ps, st.coords ++ cs⟩ :=
  ⟨fun _ _ h => lookupStr_append_some h ps,
   fun _ _ h => lookupStr_append_some h cs⟩

/-- The initial state satisfies the invariant. -/
theorem inv_initialState (pipes : List PipeSegment) : Inv pipes initialState := by
  refine ⟨rfl, ?_, ?_⟩
  · intro id v h
    rw [initialState] at h
    rw [lookupStr_singleton] at h
    by_cases hr : "ROOT" = id
    · exact Or.inl hr.symm
    · rw [if_neg hr] at h
      exact absurd h (by simp)
  · intro id rc h
    exact absurd h (by simp [initialState, lookupStr])

/-! ### Step equations of resolve -/

/-- Memo hit: a cached id returns immediately without touching the
state. -/
theorem resolve_succ_memo {pipes : List PipeSegment} {fuel : Nat} {id : String}
    {st : ResolveState} {v : Vector2D}
    (h : lookupStr id st.nodePositions = some v) :
    resolve pipes (fuel + 1) id st = some (some v, st) := by
  simp only [resolve, h]

/-- Missing pipe: resolution fails with null, state unchanged. -/
theorem resolve_succ_nopipe {pipes : List PipeSegment} {fuel : Nat} {id : String}
    {st : ResolveState} (h1 : lookupStr id st.nodePositions = none)
    (h2 : findPipe id pipes = none) :
    resolve pipes (fuel + 1) id st = some (none, st) := by
  simp only [resolve, h1, h2]

/-- The recursive call on the parent ran out of fuel: so does this one. -/
theorem resolve_succ_rec_none {pipes : List PipeSegment} {fuel : Nat}
    {id : String} {st : ResolveState} {p : PipeSegment}
    (h1 : lookupStr id st.nodePositions = none)
    (h2 : findPipe id pipes = some p)
    (h3 : resolve pipes fuel p.parentId st = none) :
    resolve pipes (fuel + 1) id st = none := by
  simp only [resolve, h1, h2, h3]

/-- The recursive call on the parent returned null: null propagates. -/
theorem resolve_succ_rec_fail {pipes : List PipeSegment} {fuel : Nat}
    {id : String} {st st1 : ResolveState} {p : PipeSegment}
    (h1 : lookupStr id st.nodePositions = none)
    (h2 : findPipe id pipes = some p)
    (h3 : resolve pipes fuel p.parentId st = some (none, st1)) :
    resolve pipes (fuel + 1) id st = some (none, st1) := by
  simp only [resolve, h1, h2, h3]

/-- The recursive call on the parent succeeded: the end position is the
parent position plus the direction vector, and both maps gain the new
binding. -/
theorem resolve_succ_rec_ok {pipes : List PipeSegment} {fuel : Nat}
    {id : String} {st st1 : ResolveState} {p : PipeSegment} {pos : Vector2D}
    (h1 : lookupStr id st.nodePositions = none)
    (h2 : findPipe id pipes = some p)
    (h3 : resolve pipes fuel p.parentId st = some (some pos, st1)) :
    resolve pipes (fuel + 1) id st =
      some (some (⟨pos.x + (calculateIsoVector p.length p.direction).x,
                   pos.y + (calculateIsoVector p.length p.direction).y⟩ : Vector2D),
        ⟨st1.nodePositions ++
          [(id, ⟨pos.x + (calculateIsoVector p.length p.direction).x,
                 pos.y + (calculateIsoVector p.length p.direction).y⟩)],
         st1.coords ++
          [(id, ⟨pos.x, pos.y,
                 pos.x + (calculateIsoVector p.length p.direction).x,
                 pos.y + (calculateIsoVector p.length p.direction).y⟩)]⟩) := by
  simp only [resolve, h1, h2, h3]

/-- Soundness and completeness of one terminating resolve call: the
invariant is preserved, the state only grows, a returned position is
cached and is the PosSpec position, and a node that has a PosSpec position
is answered with exactly that position. -/
theorem resolve_sound (pipes : List PipeSegment) :
    ∀ (fuel : Nat) (id : String) (st : ResolveState)
      (r : Option Vector2D) (st' : ResolveState),
      Inv pipes st → resolve pipes fuel id st = some (r, st') →
      Inv pipes st' ∧ StExt st st' ∧
      (∀ v, r = some v →
        lookupStr id st'.nodePositions = some v ∧ PosSpec pipes id v) ∧
      (∀ v, PosSpec pipes id v → r = some v) := by
  intro fuel
  induction fuel with
  | zero =>
    intro id st r st' _ h
    simp only [resolve] at h
    exact absurd h (by simp)
  | succ fuel ih =>
    intro id st r st' hinv hres
    rcases hl : lookupStr id st.nodePositions with _ | v
    · -- not cached
      rcases hf : findPipe id pipes with _ | p
      · -- missing pipe
        rw [resolve_succ_nopipe hl hf] at hres
        injection hres with h1
        injection h1 with hr hst
        subst hr
        subst hst
        refine ⟨hinv, stExt_refl st, ?_, ?_⟩
        · intro v hv
          exact absurd hv (by simp)
        · intro v hv
          cases hv with
          | root =>
            have hroot := hinv.root_mem
            rw [hl] at hroot
            exact absurd hroot (by simp)
          | step hne hf' hp' =>
            rw [hf] at hf'
            exact absurd hf' (by simp)
      · rcases hr3 : resolve pipes fuel p.parentId st with _ | rp
        · rw [resolve_succ_rec_none hl hf hr3] at hres
          exact absurd hres (by simp)
        · rcases rp with ⟨r1, st1⟩
          rcases r1 with _ | pos
          · -- parent resolution failed with null
            rw [resolve_succ_rec_fail hl hf hr3] at hres
            injection hres with h1
            injection h1 with hr hst
            subst hr
            subst hst
            obtain ⟨hinv1, hext1, _, hcomp1⟩ := ih p.parentId st none st1 hinv hr3
            refine ⟨hinv1, hext1, ?_, ?_⟩
            · intro v hv
              exact absurd hv (by simp)
            · intro v hv
              cases hv with
              | root =>
                have hroot := hinv.root_mem
                rw [hl] at hroot
                exact absurd hroot (by simp)
              | step hne hf' hp' =>
                rw [hf] at hf'
                injection hf' with hpe
                subst hpe
                exact absurd (hcomp1 _ hp') (by simp)
          · -- parent resolution succeeded
            rw [resolve_succ_rec_ok hl hf hr3] at hres
            injection hres with h1
            injection h1 with hr hst
            subst hr
            subst hst
            obtain ⟨hinv1, hext1, hsome1, _⟩ := ih p.parentId st (some pos) st1 hinv hr3
            obtain ⟨hlp1, hPpar⟩ := hsome1 pos rfl
            have hidne : id ≠ "ROOT" := by
              intro he
              subst he
              have hroot := hinv.root_mem
              rw [hl] at hroot
              exact absurd hroot (by simp)
            have hPend : PosSpec pipes id
                ⟨pos.x + (calculateIsoVector p.length p.direction).x,
                 pos.y + (calculateIsoVector p.length p.direction).y⟩ :=
              PosSpec.step hidne hf hPpar
            have hlookid : lookupStr id (st1.nodePositions ++
                [(id, (⟨pos.x + (calculateIsoVector p.length p.direction).x,
                       pos.y + (calculateIsoVector p.length p.direction).y⟩ :
                    Vector2D))]) =
                some ⟨pos.x + (calculateIsoVector p.length p.direction).x,
                      pos.y + (calculateIsoVector p.length p.direction).y⟩ := by
              rcases hk1 : lookupStr id st1.nodePositions with _ | u
              · rw [lookupStr_append_none hk1, lookupStr_singleton, if_pos rfl]
              · rcases hinv1.pos_spec id u hk1 with he | ⟨hPu, _⟩
                · exact absurd he hidne
                · have hueq := posSpec_unique hPend u hPu
                  rw [lookupStr_append_some hk1, hueq]
            refine ⟨?_, stExt_trans hext1 (stExt_append st1 _ _), ?_, ?_⟩
            · -- the invariant for the extended state
              refine ⟨lookupStr_append_some hinv1.root_mem _, ?_, ?_⟩
              · -- pos_spec
                intro k v hk
                rcases hk1 : lookupStr k st1.nodePositions with _ | u
                · rw [lookupStr_append_none hk1, lookupStr_singleton] at hk
                  by_cases hik : id = k
                  · subst hik
                    rw [if_pos rfl] at hk
                    injection hk with hk
                    subst hk
                    refine Or.inr ⟨hPend, ?_⟩
                    rcases hk2 : lookupStr id st1.coords with _ | rc0
                    · refine ⟨⟨pos.x, pos.y,
                        pos.x + (calculateIsoVector p.length p.direction).x,
                        pos.y + (calculateIsoVector p.length p.direction).y⟩,
                        ?_, rfl, rfl⟩
                      rw [lookupStr_append_none hk2, lookupStr_singleton,
                        if_pos rfl]
                    · obtain ⟨_, ⟨v0, hv0, _, _⟩, _⟩ :=
                        hinv1.coords_spec id rc0 hk2
                      rw [hk1] at hv0
                      exact absurd hv0 (by simp)
                  · rw [if_neg hik] at hk
                    exact absurd hk (by simp)
                · rw [lookupStr_append_some hk1] at hk
                  injection hk with hk
                  subst hk
                  rcases hinv1.pos_spec k u hk1 with he | ⟨hPu, rc0, hrc0, hex, hey⟩
                  · exact Or.inl he
                  · exact Or.inr ⟨hPu, rc0, lookupStr_append_some hrc0 _, hex, hey⟩
              · -- coords_spec
                intro k rc hk
                rcases hk1 : lookupStr k st1.coords with _ | rc0
                · rw [lookupStr_append_none hk1, lookupStr_singleton] at hk
                  by_cases hik : id = k
                  · subst hik
                    rw [if_pos rfl] at hk
                    injection hk with hk
                    subst hk
                    refine ⟨hidne,
                      ⟨⟨pos.x + (calculateIsoVector p.length p.direction).x,
                        pos.y + (calculateIsoVector p.length p.direction).y⟩,
                        hlookid, rfl, rfl⟩,
                      p, hf, hPpar, rfl, rfl, ?_⟩
                    by_cases hpr : p.parentId = "ROOT"
                    · refine Or.inl ⟨hpr, ?_, ?_⟩
                      · show pos.x = 0
                        rw [hpr] at hPpar
                        have h0 := posSpec_unique PosSpec.root pos hPpar
                        rw [← h0]
                      · show pos.y = 0
                        rw [hpr] at hPpar
                        have h0 := posSpec_unique PosSpec.root pos hPpar
                        rw [← h0]
                    · rcases hinv1.pos_spec p.parentId pos hlp1 with he | ⟨_, prc, hprc, hpx, hpy⟩
                      · exact absurd he hpr
                      · exact Or.inr ⟨prc, lookupStr_append_some hprc _, hpx, hpy⟩
                  · rw [if_neg hik] at hk
                    exact absurd hk (by simp)
                · rw [lookupStr_append_some hk1] at hk
                  injection hk with hk
                  subst hk
                  obtain ⟨hkne, ⟨v0, hv0, hv0x, hv0y⟩, q, hq, hPq, hsx, hsy, hpp⟩ :=
                    hinv1.coords_spec k rc0 hk1
                  refine ⟨hkne, ⟨v0, lookupStr_append_some hv0 _, hv0x, hv0y⟩,
                    q, hq, hPq, hsx, hsy, ?_⟩
                  rcases hpp with hppl | ⟨prc, hprc, hp1, hp2⟩
                  · exact Or.inl hppl
                  · exact Or.inr ⟨prc, lookupStr_append_some hprc _, hp1, hp2⟩
            · -- the returned value is cached and is the PosSpec position
              intro v hv
              injection hv with hv
              subst hv
              exact ⟨hlookid, hPend⟩
            · -- completeness against PosSpec
              intro v hv
              exact congrArg some (posSpec_unique hPend v hv)
    · -- cached
      rw [resolve_succ_memo hl] at hres
      injection hres with h1
      injection h1 with hr hst
      subst hr
      subst hst
      have hvP : PosSpec pipes id v := by
        rcases hinv.pos_spec id v hl with he | ⟨hp, _⟩
        · subst he
          have hroot := hinv.root_mem
          rw [hl] at hroot
          injection hroot with hroot
          rw [hroot]
          exact PosSpec.root
        · exact hp
      refine ⟨hinv, stExt_refl st, ?_, ?_⟩
      · intro w hw
        injection hw with hw
        subst hw
        exact ⟨hl, hvP⟩
      · intro w hw
        exact congrArg some (posSpec_unique hvP w hw)

/-- More fuel never changes a terminating resolve call. -/
theorem resolve_mono (pipes : List PipeSegment) :
    ∀ (fuel fuel' : Nat) (id : String) (st : ResolveState)
      (out : Option Vector2D × ResolveState),
      fuel ≤ fuel' → resolve pipes fuel id st = some out →
      resolve pipes fuel' id st = some out := by
  intro fuel
  induction fuel with
  | zero =>
    intro fuel' id st out _ h
    simp only [resolve] at h
    exact absurd h (by simp)
  | succ fuel ih =>
    intro fuel' id st out hle hres
    obtain ⟨f', rfl⟩ : ∃ f', fuel' = f' + 1 := ⟨fuel' - 1, by omega⟩
    have hle' : fuel ≤ f' := by omega
    rcases hl : lookupStr id st.nodePositions with _ | v
    · rcases hf : findPipe id pipes with _ | p
      · rw [resolve_succ_nopipe hl hf] at hres
        rw [resolve_succ_nopipe hl hf]
        exact hres
      · rcases hr3 : resolve pipes fuel p.parentId st with _ | rp
        · rw [resolve_succ_rec_none hl hf hr3] at hres
          exact absurd hres (by simp)
        · have hr3' := ih f' p.parentId st rp hle' hr3
          rcases rp with ⟨r1, st1⟩
          rcases r1 with _ | pos
          · rw [resolve_succ_rec_fail hl hf hr3] at hres
            rw [resolve_succ_rec_fail hl hf hr3']
            exact hres
          · rw [resolve_succ_rec_ok hl hf hr3] at hres
            rw [resolve_succ_rec_ok hl hf hr3']
            exact hres
    · rw [resolve_succ_memo hl] at hres
      rw [resolve_succ_memo hl]
      exact hres

/-- A node with a terminating ancestor chain gets a terminating resolve
call for some fuel, from any state that caches ROOT. -/
theorem resolve_total (pipes : List PipeSegment) {id : String}
    (h : Resolvable pipes id) :
    ∀ st : ResolveState,
      lookupStr "ROOT" st.nodePositions = some ⟨0, 0⟩ →
      ∃ fuel out, resolve pipes fuel id st = some out := by
  induction h with
  | root =>
    intro st hroot
    exact ⟨1, (some ⟨0, 0⟩, st), resolve_succ_memo hroot⟩
  | @missing id hmiss =>
    intro st hroot
    rcases hl : lookupStr id st.nodePositions with _ | v
    · exact ⟨1, (none, st), resolve_succ_nopipe hl hmiss⟩
    · exact ⟨1, (some v, st), resolve_succ_memo hl⟩
  | @step id p hf _ ih =>
    intro st hroot
    rcases hl : lookupStr id st.nodePositions with _ | v
    · obtain ⟨f1, ⟨r1, st1⟩, h1⟩ := ih st hroot
      rcases r1 with _ | pos
      · exact ⟨f1 + 1, (none, st1), resolve_succ_rec_fail hl hf h1⟩
      · exact ⟨f1 + 1, _, resolve_succ_rec_ok hl hf h1⟩
    · exact ⟨1, (some v, st), resolve_succ_memo hl⟩

/-- More fuel never changes a terminating resolver pass. -/
theorem resolveList_mono (pipes : List PipeSegment) :
    ∀ (l : List PipeSegment) (fuel fuel' : Nat) (st st' : ResolveState),
      fuel ≤ fuel' → resolveList pipes fuel st l = some st' →
      resolveList pipes fuel' st l = some st' := by
  intro l
  induction l with
  | nil =>
    intro fuel fuel' st st' _ h
    exact h
  | cons p rest ihl =>
    intro fuel fuel' st st' hle h
    rcases hr : resolve pipes fuel p.id st with _ | out
    · simp [resolveList, hr] at h
    · rcases out with ⟨r1, st1⟩
      simp only [resolveList, hr] at h
      have hr' := resolve_mono pipes fuel fuel' p.id st (r1, st1) hle hr
      simp only [resolveList, hr']
      exact ihl fuel fuel' st1 st' hle h

/-- Soundness of the resolver pass: the invariant is preserved and every
processed pipe whose node has a PosSpec position ends up cached at that
position. -/
theorem resolveList_sound (pipes : List PipeSegment) :
    ∀ (l : List PipeSegment) (fuel : Nat) (st st' : ResolveState),
      Inv pipes st → resolveList pipes fuel st l = some st' →
      Inv pipes st' ∧ StExt st st' ∧
      ∀ p ∈ l, ∀ v, PosSpec pipes p.id v →
        lookupStr p.id st'.nodePositions = some v := by
  intro l
  induction l with
  | nil =>
    intro fuel st st' hinv h
    simp only [resolveList] at h
    injection h with h
    subst h
    exact ⟨hinv, stExt_refl st, by simp⟩
  | cons p rest ihl =>
    intro fuel st st' hinv h
    rcases hr : resolve pipes fuel p.id st with _ | out
    · simp [resolveList, hr] at h
    · rcases out with ⟨r1, st1⟩
      simp only [resolveList, hr] at h
      obtain ⟨hinv1, hext1, hsome1, hcomp1⟩ :=
        resolve_sound pipes fuel p.id st r1 st1 hinv hr
      obtain ⟨hinv2, hext2, hprog2⟩ := ihl fuel st1 st' hinv1 h
      refine ⟨hinv2, stExt_trans hext1 hext2, ?_⟩
      intro q hq v hv
      rcases List.mem_cons.mp hq with he | hm
      · subst he
        have hr1 : r1 = some v := hcomp1 v hv
        subst hr1
        obtain ⟨hlk, _⟩ := hsome1 v rfl
        exact hext2.pos _ _ hlk
      · exact hprog2 q hm v hv

/-- Totality of the resolver pass when every listed pipe has a
terminating ancestor chain. -/
theorem resolveList_total (pipes : List PipeSegment) :
    ∀ (l : List PipeSegment) (st : ResolveState), Inv pipes st →
      (∀ p ∈ l, Resolvable pipes p.id) →
      ∃ fuel st', resolveList pipes fuel st l = some st' := by
  intro l
  induction l with
  | nil =>
    intro st _ _
    exact ⟨0, st, rfl⟩
  | cons p rest ihl =>
    intro st hinv hall
    obtain ⟨f1, ⟨r1, st1⟩, h1⟩ :=
      resolve_total pipes (hall p (List.mem_cons_self p rest)) st hinv.root_mem
    obtain ⟨hinv1, _, _, _⟩ := resolve_sound pipes f1 p.id st r1 st1 hinv h1
    obtain ⟨f2, st2, h2⟩ := ihl st1 hinv1
      (fun q hq => hall q (List.mem_cons_of_mem _ hq))
    refine ⟨max f1 f2, st2, ?_⟩
    have h1' := resolve_mono pipes f1 (max f1 f2) p.id st (r1, st1)
      (le_max_left _ _) h1
    simp only [resolveList, h1']
    exact resolveList_mono pipes rest f2 (max f1 f2) st1 st2 (le_max_right _ _) h2

/-! ### Output characterisation -/

/-- Full characterisation of a resolver output map: its keys are exactly
the non-ROOT listed ids whose ancestor chain terminates at ROOT, and every
entry is the parent position (pointing back at the parent entry, or the
origin for a ROOT parent) displaced by the direction vector. -/
def OutputSpec (pipes : List PipeSegment)
    (m : List (String × ResolvedCoordinates)) : Prop :=
  (∀ id, (lookupStr id m).isSome ↔
    (id ≠ "ROOT" ∧ (∃ p ∈ pipes, p.id = id) ∧ ReachesRoot pipes id)) ∧
  (∀ id rc, lookupStr id m = some rc →
    ∃ p, findPipe id pipes = some p ∧
      PosSpec pipes p.parentId ⟨rc.startX, rc.startY⟩ ∧
      rc.endX = rc.startX + (calculateIsoVector p.length p.direction).x ∧
      rc.endY = rc.startY + (calculateIsoVector p.length p.direction).y ∧
      (p.parentId = "ROOT" ∧ rc.startX = 0 ∧ rc.startY = 0 ∨
       ∃ prc, lookupStr p.parentId m = some prc ∧
         prc.endX = rc.startX ∧ prc.endY = rc.startY))

/-- Every terminating run of resolveAllCoordinates satisfies the output
characterisation. -/
theorem resolveAll_outputSpec (pipes : List PipeSegment) (fuel : Nat)
    (m : List (String × ResolvedCoordinates))
    (h : resolveAllCoordinates fuel pipes = some m) : OutputSpec pipes m := by
  rcases hres : resolveList pipes fuel initialState pipes with _ | st'
  · rw [resolveAllCoordinates, hres] at h
    exact absurd h (by simp)
  · rw [resolveAllCoordinates, hres] at h
    injection h with h
    subst h
    obtain ⟨hinv', _, hprog⟩ :=
      resolveList_sound pipes pipes fuel initialState st'
        (inv_initialState pipes) hres
    constructor
    · intro id
      constructor
      · intro hs
        rcases hlk : lookupStr id st'.coords with _ | rc
        · rw [hlk] at hs
          simp at hs
        · obtain ⟨hne, _, q, hq, hPq, _, _, _⟩ := hinv'.coords_spec id rc hlk
          obtain ⟨hqmem, hqid⟩ := findPipe_mem hq
          exact ⟨hne, ⟨q, hqmem, hqid⟩, _, PosSpec.step hne hq hPq⟩
      · rintro ⟨hne, ⟨q, hqmem, hqid⟩, v, hv⟩
        have hv' : PosSpec pipes q.id v := by
          rw [hqid]
          exact hv
        have hlk2 := hprog q hqmem v hv'
        rw [hqid] at hlk2
        rcases hinv'.pos_spec id v hlk2 with he | ⟨_, rc, hrc, _, _⟩
        · exact absurd he hne
        · rw [hrc]
          simp
    · intro id rc hlk
      obtain ⟨_, _, q, hq, hPq, hsx, hsy, hpp⟩ := hinv'.coords_spec id rc hlk
      exact ⟨q, hq, hPq, hsx, hsy, hpp⟩

/-- Termination of resolveAllCoordinates when every listed pipe has a
terminating ancestor chain (equivalently: no parent cycle is reachable
from the list). -/
theorem resolveAll_total (pipes : List PipeSegment)
    (H : ∀ p ∈ pipes, Resolvable pipes p.id) :
    ∃ fuel m, resolveAllCoordinates fuel pipes = some m := by
  obtain ⟨fuel, st', h⟩ :=
    resolveList_total pipes pipes initialState (inv_initialState pipes) H
  refine ⟨fuel, st'.coords, ?_⟩
  rw [resolveAllCoordinates, h]
  rfl

/-- Two maps satisfying the output characterisation agree on every
lookup. -/
theorem outputSpec_unique {pipes : List PipeSegment}
    {m m' : List (String × ResolvedCoordinates)}
    (h1 : OutputSpec pipes m) (h2 : OutputSpec pipes m') :
    ∀ id, lookupStr id m = lookupStr id m' := by
  intro id
  rcases hl1 : lookupStr id m with _ | rc
  · rcases hl2 : lookupStr id m' with _ | rc'
    · rfl
    · have hs := (h2.1 id).mp (by rw [hl2]; simp)
      have hcontra := (h1.1 id).mpr hs
      rw [hl1] at hcontra
      simp at hcontra
  · rcases hl2 : lookupStr id m' with _ | rc'
    · have hs := (h1.1 id).mp (by rw [hl1]; simp)
      have hcontra := (h2.1 id).mpr hs
      rw [hl2] at hcontra
      simp at hcontra
    · obtain ⟨p, hp, hP, hex, hey, _⟩ := h1.2 id rc hl1
      obtain ⟨p', hp', hP', hex', hey', _⟩ := h2.2 id rc' hl2
      rw [hp] at hp'
      injection hp' with hpe
      subst hpe
      have hstart := posSpec_unique hP _ hP'
      have hsx : rc.startX = rc'.startX := congrArg Vector2D.x hstart
      have hsy : rc.startY = rc'.startY := congrArg Vector2D.y hstart
      rcases rc with ⟨a, b, c, d⟩
      rcases rc' with ⟨a', b', c', d'⟩
      simp only at hsx hsy hex hey hex' hey'
      subst hsx
      subst hsy
      have hc : c = c' := by rw [hex, hex']
      have hd : d = d' := by rw [hey, hey']
      rw [hc, hd]

/-! ### Permutation transfer -/

/-- With pairwise distinct ids, a first-match lookup is unchanged by
permuting the list. -/
theorem findPipe_perm {pipes pipes' : List PipeSegment}
    (hperm : pipes.Perm pipes')
    (hnd : (pipes.map PipeSegment.id).Nodup)
    {id : String} {p : PipeSegment} (h : findPipe id pipes = some p) :
    findPipe id pipes' = some p := by
  obtain ⟨hmem, hid⟩ := findPipe_mem h
  have hmem' : p ∈ pipes' := hperm.mem_iff.mp hmem
  obtain ⟨q, hq⟩ := findPipe_isSome_of_mem hmem' hid
  obtain ⟨hqmem', hqid⟩ := findPipe_mem hq
  have hqmem : q ∈ pipes := hperm.mem_iff.mpr hqmem'
  have hqp : q = p :=
    List.inj_on_of_nodup_map hnd hqmem hmem (by rw [hqid, hid])
  rw [hq, hqp]

/-- With pairwise distinct ids, PosSpec positions transfer across a
permutation of the pipe list. -/
theorem posSpec_perm {pipes pipes' : List PipeSegment}
    (hperm : pipes.Perm pipes') (hnd : (pipes.map PipeSegment.id).Nodup) :
    ∀ {id : String} {v : Vector2D}, PosSpec pipes id v → PosSpec pipes' id v := by
  intro id v h
  induction h with
  | root => exact PosSpec.root
  | step hne hf _ ih => exact PosSpec.step hne (findPipe_perm hperm hnd hf) ih

/-- With pairwise distinct ids, the output characterisation transfers
across a permutation of the pipe list. -/
theorem outputSpec_perm {pipes pipes' : List PipeSegment}
    (hperm : pipes.Perm pipes') (hnd : (pipes.map PipeSegment.id).Nodup)
    {m : List (String × ResolvedCoordinates)} (h : OutputSpec pipes' m) :
    OutputSpec pipes m := by
  have hnd' : (pipes'.map PipeSegment.id).Nodup :=
    ((hperm.map PipeSegment.id).nodup_iff).mp hnd
  constructor
  · intro id
    rw [h.1 id]
    constructor
    · rintro ⟨hne, ⟨q, hqmem, hqid⟩, v, hv⟩
      exact ⟨hne, ⟨q, hperm.mem_iff.mpr hqmem, hqid⟩,
        v, posSpec_perm hperm.symm hnd' hv⟩
    · rintro ⟨hne, ⟨q, hqmem, hqid⟩, v, hv⟩
      exact ⟨hne, ⟨q, hperm.mem_iff.mp hqmem, hqid⟩,
        v, posSpec_perm hperm hnd hv⟩
  · intro id rc hlk
    obtain ⟨p, hp, hP, hex, hey, hpp⟩ := h.2 id rc hlk
    exact ⟨p, findPipe_perm hperm.symm hnd' hp,
      posSpec_perm hperm.symm hnd' hP, hex, hey, hpp⟩

/-! ### Claim theorems on the resolver -/

/-- A two-element parent cycle: A points at B and B points at A. -/
def pipeCycleA : PipeSegment :=
  ⟨"A", "B", 1, "1", Direction.UP, FittingType.NONE, InstallationType.ABOVE, none⟩

/-- The second half of the two-element parent cycle. -/
def pipeCycleB : PipeSegment :=
  ⟨"B", "A", 1, "1", Direction.UP, FittingType.NONE, InstallationType.ABOVE, none⟩

/-- On the cyclic pair, the inner resolve exhausts every finite recursion
depth budget from the initial state: the unguarded recursion never reaches
a base case. -/
theorem resolve_cycle_diverges :
    ∀ fuel : Nat,
      resolve [pipeCycleA, pipeCycleB] fuel "A" initialState = none ∧
      resolve [pipeCycleA, pipeCycleB] fuel "B" initialState = none := by
  intro fuel
  induction fuel with
  | zero => exact ⟨rfl, rfl⟩
  | succ fuel ih =>
    constructor
    · exact resolve_succ_rec_none rfl rfl ih.2
    · exact resolve_succ_rec_none rfl rfl ih.1

/-- C1: on a segment list containing the parent cycle A to B to A, the
unguarded recursive resolver of the code never terminates: for every
finite recursion depth budget the run is still unfinished, which is the
stack overflow of the original JS code. This refutes the claim that
resolveAll terminates on every cyclic input with the cyclic segments
merely absent from the output: the code has no cycle guard. -/
theorem resolveAll_cycle_diverges :
    ∀ fuel : Nat,
      resolveAllCoordinates fuel [pipeCycleA, pipeCycleB] = none := by
  intro fuel
  have h : resolve [pipeCycleA, pipeCycleB] fuel pipeCycleA.id initialState
      = none := (resolve_cycle_diverges fuel).1
  rw [resolveAllCoordinates]
  simp only [resolveList, h]
  rfl

/-- C2: every entry of a terminating resolveAllCoordinates output has its
end point equal to its start point plus its direction vector, and its
start point equal to the resolved end point of its parent entry, or the
origin when the parent is the reserved ROOT id. -/
theorem resolveAll_start_matches_parent_end (pipes : List PipeSegment)
    (fuel : Nat) (m : List (String × ResolvedCoordinates))
    (h : resolveAllCoordinates fuel pipes = some m) :
    ∀ id rc, lookupStr id m = some rc →
      ∃ p, findPipe id pipes = some p ∧
        rc.endX = rc.startX + (calculateIsoVector p.length p.direction).x ∧
        rc.endY = rc.startY + (calculateIsoVector p.length p.direction).y ∧
        (p.parentId = "ROOT" ∧ rc.startX = 0 ∧ rc.startY = 0 ∨
         ∃ prc, lookupStr p.parentId m = some prc ∧
           prc.endX = rc.startX ∧ prc.endY = rc.startY) := by
  intro id rc hrc
  obtain ⟨p, hp, _, hex, hey, hpp⟩ :=
    (resolveAll_outputSpec pipes fuel m h).2 id rc hrc
  exact ⟨p, hp, hex, hey, hpp⟩

/-- A sample pipe hanging directly off ROOT, used by the witnesses. -/
def pipeSample : PipeSegment :=
  ⟨"A", "ROOT", 1, "1", Direction.UP, FittingType.NONE,
   InstallationType.ABOVE, none⟩

/-- The coordinate map computed for the sample pipe. -/
def sampleMap : List (String × ResolvedCoordinates) :=
  [("A", ⟨0, 0, 0 + 0, 0 + -(1 * CONFIG_SCALE)⟩)]

/-- Witness for C2 on the sample pipe. -/
theorem resolveAll_start_matches_parent_end_witness :
    resolveAllCoordinates 2 [pipeSample] = some sampleMap ∧
    ∃ p, findPipe "A" [pipeSample] = some p ∧
      ∃ rc, lookupStr "A" sampleMap = some rc ∧
        rc.endX = rc.startX + (calculateIsoVector p.length p.direction).x ∧
        rc.endY = rc.startY + (calculateIsoVector p.length p.direction).y ∧
        (p.parentId = "ROOT" ∧ rc.startX = 0 ∧ rc.startY = 0 ∨
         ∃ prc, lookupStr p.parentId sampleMap = some prc ∧
           prc.endX = rc.startX ∧ prc.endY = rc.startY) := by
  refine ⟨rfl, ?_⟩
  obtain ⟨p, hp, hex, hey, hpp⟩ :=
    resolveAll_start_matches_parent_end [pipeSample] 2 sampleMap rfl "A"
      ⟨0, 0, 0 + 0, 0 + -(1 * CONFIG_SCALE)⟩ rfl
  exact ⟨p, hp, ⟨0, 0, 0 + 0, 0 + -(1 * CONFIG_SCALE)⟩, rfl, hex, hey, hpp⟩

/-- C3: when no parent cycle is reachable from the list (every listed
pipe has a terminating ancestor chain), resolveAllCoordinates terminates
and its output map has an entry exactly for the non-ROOT listed ids whose
full ancestor chain terminates at ROOT; ids referencing a nonexistent
parent, and their descendants, are excluded without affecting the rest. -/
theorem resolveAll_keys_iff_reachesRoot (pipes : List PipeSegment)
    (H : ∀ p ∈ pipes, Resolvable pipes p.id) :
    ∃ fuel m, resolveAllCoordinates fuel pipes = some m ∧
      ∀ id, (lookupStr id m).isSome ↔
        (id ≠ "ROOT" ∧ (∃ p ∈ pipes, p.id = id) ∧ ReachesRoot pipes id) := by
  obtain ⟨fuel, m, hm⟩ := resolveAll_total pipes H
  exact ⟨fuel, m, hm, (resolveAll_outputSpec pipes fuel m hm).1⟩

/-- Witness for C3 on the sample pipe. -/
theorem resolveAll_keys_iff_reachesRoot_witness :
    (∀ p ∈ [pipeSample], Resolvable [pipeSample] p.id) ∧
    ∃ fuel m, resolveAllCoordinates fuel [pipeSample] = some m ∧
      ∀ id, (lookupStr id m).isSome ↔
        (id ≠ "ROOT" ∧ (∃ p ∈ [pipeSample], p.id = id) ∧
          ReachesRoot [pipeSample] id) := by
  have H : ∀ p ∈ [pipeSample], Resolvable [pipeSample] p.id := by
    intro p hp
    rw [List.mem_singleton] at hp
    subst hp
    exact Resolvable.step (p := pipeSample) rfl Resolvable.root
  exact ⟨H, resolveAll_keys_iff_reachesRoot [pipeSample] H⟩

/-- C7: the resolver is deterministic. Two terminating runs on the same
unchanged segment list produce maps that agree on every lookup, whatever
the recursion budgets of the two runs; with the direction vector
calculator a pure function of its two arguments, the whole pipeline is
repeatable. -/
theorem resolveAll_deterministic (pipes : List PipeSegment)
    (fuel fuel' : Nat) (m m' : List (String × ResolvedCoordinates))
    (h : resolveAllCoordinates fuel pipes = some m)
    (h' : resolveAllCoordinates fuel' pipes = some m') :
    (∀ len d, calculateIsoVector len d = calculateIsoVector len d) ∧
    ∀ id, lookupStr id m = lookupStr id m' :=
  ⟨fun _ _ => rfl,
   outputSpec_unique (resolveAll_outputSpec pipes fuel m h)
     (resolveAll_outputSpec pipes fuel' m' h')⟩

/-- Witness for C7: two runs on the sample pipe. -/
theorem resolveAll_deterministic_witness :
    resolveAllCoordinates 2 [pipeSample] = some sampleMap ∧
    resolveAllCoordinates 3 [pipeSample] = some sampleMap ∧
    (∀ len d, calculateIsoVector len d = calculateIsoVector len d) ∧
    ∀ id, lookupStr id sampleMap = lookupStr id sampleMap :=
  ⟨rfl, rfl, resolveAll_deterministic [pipeSample] 2 3 sampleMap sampleMap rfl rfl⟩

/-- C8: on a list with pairwise distinct ids in which every ancestor
chain terminates at ROOT, resolving any permutation of the list
terminates and produces a coordinate map agreeing on every lookup with
the map of the original order. -/
theorem resolveAll_perm_invariant (pipes pipes' : List PipeSegment)
    (hperm : pipes.Perm pipes')
    (hnd : (pipes.map PipeSegment.id).Nodup)
    (H : ∀ p ∈ pipes, ReachesRoot pipes p.id) :
    ∃ fuel fuel' m m', resolveAllCoordinates fuel pipes = some m ∧
      resolveAllCoordinates fuel' pipes' = some m' ∧
      ∀ id, lookupStr id m = lookupStr id m' := by
  have hnd' : (pipes'.map PipeSegment.id).Nodup :=
    ((hperm.map PipeSegment.id).nodup_iff).mp hnd
  have H1 : ∀ p ∈ pipes, Resolvable pipes p.id := by
    intro p hp
    obtain ⟨v, hv⟩ := H p hp
    exact resolvable_of_posSpec hv
  have H2 : ∀ p ∈ pipes', Resolvable pipes' p.id := by
    intro p hp
    obtain ⟨v, hv⟩ := H p (hperm.mem_iff.mpr hp)
    exact resolvable_of_posSpec (posSpec_perm hperm hnd hv)
  obtain ⟨fuel, m, hm⟩ := resolveAll_total pipes H1
  obtain ⟨fuel', m', hm'⟩ := resolveAll_total pipes' H2
  have o1 := resolveAll_outputSpec pipes fuel m hm
  have o2 : OutputSpec pipes m' :=
    outputSpec_perm hperm hnd (resolveAll_outputSpec pipes' fuel' m' hm')
  exact ⟨fuel, fuel', m, m', hm, hm', outputSpec_unique o1 o2⟩

/-- Witness for C8 on the sample pipe with the identity permutation. -/
theorem resolveAll_perm_invariant_witness :
    ([pipeSample].Perm [pipeSample]) ∧
    ([pipeSample].map PipeSegment.id).Nodup ∧
    (∀ p ∈ [pipeSample], ReachesRoot [pipeSample] p.id) ∧
    ∃ fuel fuel' m m', resolveAllCoordinates fuel [pipeSample] = some m ∧
      resolveAllCoordinates fuel' [pipeSample] = some m' ∧
      ∀ id, lookupStr id m = lookupStr id m' := by
  have hperm : [pipeSample].Perm [pipeSample] := List.Perm.refl _
  have hnd : ([pipeSample].map PipeSegment.id).Nodup := by simp
  have H : ∀ p ∈ [pipeSample], ReachesRoot [pipeSample] p.id := by
    intro p hp
    rw [List.mem_singleton] at hp
    subst hp
    exact ⟨_, PosSpec.step (p := pipeSample) (by decide) rfl PosSpec.root⟩
  exact ⟨hperm, hnd, H,
    resolveAll_perm_invariant [pipeSample] [pipeSample] hperm hnd H⟩

end

end Isonegar
